import Mathlib

/-!
Verification of the spending-tracker core: a shallow embedding of the
storage layer (`db.ts`), the budget resolver, the change-notification bus
(`transactions-events.ts`), the transaction form handlers, and the donut
chart geometry, together with proofs of the specification claims.

The SQLite database is modelled as explicit lists of rows; SQL queries are
translated statement by statement.  JavaScript `number` amounts are
modelled as rationals; `YYYY-MM` / `YYYY-MM-DD` keys stay strings and are
compared exactly as SQLite compares TEXT values, i.e. lexicographically on
the character sequence.
-/

namespace SpendingTracker

/-! ## SQLite TEXT comparison

SQLite compares TEXT values bytewise (memcmp); on the app's ASCII month and
date keys this is lexicographic comparison of the characters, which is the
lexicographic order on `String.data`. -/

def textLt (a b : String) : Prop := a.data < b.data

def textLe (a b : String) : Prop := a.data ≤ b.data

instance textLt.decidable (a b : String) : Decidable (textLt a b) := by
  unfold textLt; infer_instance

instance textLe.decidable (a b : String) : Decidable (textLe a b) := by
  unfold textLe; infer_instance

theorem textLe_refl (a : String) : textLe a a := le_refl a.data

theorem textLe_trans {a b c : String} (h1 : textLe a b) (h2 : textLe b c) : textLe a c :=
  le_trans h1 h2

theorem textLe_of_lt {a b : String} (h : textLt a b) : textLe a b := le_of_lt h

theorem textLe_of_not_lt {a b : String} (h : ¬ textLt a b) : textLe b a := not_lt.mp h

theorem not_textLt_of_le {a b : String} (h : textLe a b) : ¬ textLt b a := not_lt.mpr h

theorem textLe_antisymm {a b : String} (h1 : textLe a b) (h2 : textLe b a) : a = b := by
  cases a; cases b
  exact congrArg String.mk (le_antisymm h1 h2)

/-! ## Storage schema (`initDb`)

`transactions (id, amount REAL, category TEXT, label TEXT NULL, date TEXT)`
and `budgets (id, month TEXT, category TEXT, amount REAL)` with the unique
index `budgets_month_category_idx` on `(month, category)`.  Tables are
modelled as lists of rows; the budget row's auto-assigned `id` plays no
role in any claim and is omitted from the projection. -/

structure TransactionRow where
  id : Nat
  amount : ℚ
  category : String
  label : Option String
  date : String
deriving DecidableEq

structure BudgetRow where
  month : String
  category : String
  amount : ℚ
deriving DecidableEq

/-- The persisted invariant enforced by `budgets_month_category_idx`:
at most one budget row per `(month, category)` pair. -/
def budgetInvariant (bs : List BudgetRow) : Prop :=
  bs.Pairwise (fun a b => ¬ (a.month = b.month ∧ a.category = b.category))

instance budgetInvariant.decidable (bs : List BudgetRow) : Decidable (budgetInvariant bs) := by
  unfold budgetInvariant; infer_instance

/-! ## Transaction operations (`db.ts`) -/

/-- SQL `INSERT INTO transactions (amount, category, label, date) VALUES (?, ?, ?, ?)`;
the store assigns the next id. -/
def insertTransaction (ts : List TransactionRow) (id : Nat) (amount : ℚ)
    (category : String) (label : Option String) (date : String) : List TransactionRow :=
  ts ++ [⟨id, amount, category, label, date⟩]

/-- Function `deleteTransactions`: early return on an empty id list, otherwise
`DELETE FROM transactions WHERE id IN (...)`. -/
def deleteTransactions (ts : List TransactionRow) (ids : List Nat) : List TransactionRow :=
  if ids.isEmpty then ts
  else ts.filter (fun t => decide (t.id ∉ ids))

/-- SQL `UPDATE transactions SET amount = ?, category = ?, label = ?, date = ? WHERE id = ?`. -/
def updateTransaction (ts : List TransactionRow) (id : Nat) (amount : ℚ)
    (category : String) (label : Option String) (date : String) : List TransactionRow :=
  ts.map (fun t => if t.id = id then ⟨id, amount, category, label, date⟩ else t)

/-- The `WHERE date >= ? AND date < ?` half-open range condition. -/
def inDateRange (t : TransactionRow) (monthStart monthEnd : String) : Bool :=
  decide (textLe monthStart t.date) && decide (textLt t.date monthEnd)

/-- Sum `SUM(amount)` for one `GROUP BY category` group. -/
def categoryTotal (ts : List TransactionRow) (monthStart monthEnd c : String) : ℚ :=
  ((ts.filter (fun t => inDateRange t monthStart monthEnd && decide (t.category = c))).map
    TransactionRow.amount).sum

/-- SQL `SELECT category, SUM(amount) as total FROM transactions
WHERE date >= ? AND date < ? GROUP BY category`: one row per distinct
category among the rows in range, carrying that group's sum. -/
def getMonthlyCategoryTotals (ts : List TransactionRow) (monthStart monthEnd : String) :
    List (String × ℚ) :=
  (((ts.filter (fun t => inDateRange t monthStart monthEnd)).map
      TransactionRow.category).dedup).map
    (fun c => (c, categoryTotal ts monthStart monthEnd c))

/-! ## Budget operations (`db.ts` / part_005) -/

/-- SQL `SELECT amount FROM budgets WHERE category = ? AND month = ? LIMIT 1`
(the unique index makes the matching row unique, so the first match is the
row). -/
def findExact (bs : List BudgetRow) (category month : String) : Option BudgetRow :=
  bs.find? (fun b => decide (b.category = category) && decide (b.month = month))

/-- Keep the row with the later month (`ORDER BY month DESC LIMIT 1`
selects a row of maximal month among the matches). -/
def laterOf : Option BudgetRow → BudgetRow → Option BudgetRow
  | none, b => some b
  | some a, b => if textLt a.month b.month then some b else some a

/-- SQL `SELECT amount FROM budgets WHERE category = ? AND month <= ?
ORDER BY month DESC LIMIT 1`. -/
def findFallback (bs : List BudgetRow) (category month : String) : Option BudgetRow :=
  (bs.filter (fun b => decide (b.category = category) && decide (textLe b.month month))).foldl
    laterOf none

/-- Per-category result of `getMonthlyBudgetsWithFallbackStatus`. -/
structure ResolvedBudget where
  amount : ℚ
  exact : Bool
deriving DecidableEq

/-- One iteration of the `getMonthlyBudgetsWithFallbackStatus` loop:
exact-month lookup first, then the `month <= ?` fallback, defaulting to 0. -/
def resolveBudgetStatus (bs : List BudgetRow) (month category : String) : ResolvedBudget :=
  match findExact bs category month with
  | some row => ⟨row.amount, true⟩
  | none =>
    match findFallback bs category month with
    | some row => ⟨row.amount, false⟩
    | none => ⟨0, false⟩

/-- Function `getMonthlyBudgetsWithFallbackStatus(month, categories)`, returning the
per-category `(amounts, exact)` records as an association list. -/
def getMonthlyBudgetsWithFallbackStatus (bs : List BudgetRow) (month : String)
    (categories : List String) : List (String × ResolvedBudget) :=
  categories.map (fun c => (c, resolveBudgetStatus bs month c))

/-- Function `getMonthlyBudgetsWithFallback(month, categories)`: the single
`month <= ?` lookup per category with `row?.amount ?? 0`. -/
def getMonthlyBudgetsWithFallback (bs : List BudgetRow) (month : String)
    (categories : List String) : List (String × ℚ) :=
  categories.map (fun c =>
    (c, match findFallback bs c month with
        | some row => row.amount
        | none => 0))

/-- SQL `INSERT INTO budgets (month, category, amount) VALUES (?, ?, ?)
ON CONFLICT(month, category) DO UPDATE SET amount = excluded.amount`. -/
def upsertBudget (bs : List BudgetRow) (month category : String) (amount : ℚ) :
    List BudgetRow :=
  if bs.any (fun b => decide (b.month = month) && decide (b.category = category)) then
    bs.map (fun b =>
      if b.month = month ∧ b.category = category then ⟨b.month, b.category, amount⟩ else b)
  else bs ++ [⟨month, category, amount⟩]

/-- SQL `DELETE FROM budgets WHERE month = ? AND category = ?`. -/
def deleteBudgetForMonth (bs : List BudgetRow) (month category : String) : List BudgetRow :=
  bs.filter (fun b => !(decide (b.month = month) && decide (b.category = category)))

/-! ## Change notification bus (`transactions-events.ts`)

`const listeners = new Set<Listener>()` with
`emitTransactionsChanged = () => listeners.forEach((listener) => listener())`.

The ECMAScript `Set` keeps an insertion-ordered entry list in which
`delete` blanks an entry (it does not shift later entries) and `add`
appends a value not already present; `forEach` walks the entry list by
index, re-reading its length after every callback, so entries appended
during the walk are visited and blanked entries are skipped.  Listeners
are identified by numbers; what a listener's callback does to the
subscription set is given as a list of add/remove operations. -/

abbrev Listeners := List (Option Nat)

/-- Call `listeners.add(listener)` (from `subscribeTransactionsChanged`):
append the listener unless it is already present. -/
def subscribeTransactionsChanged (s : Listeners) (l : Nat) : Listeners :=
  if some l ∈ s then s else s ++ [some l]

/-- Call `listeners.delete(listener)` (the returned unsubscribe closure):
blank every entry holding the listener. -/
def unsubscribeTransactionsChanged (s : Listeners) (l : Nat) : Listeners :=
  s.map (fun e => if e = some l then none else e)

/-- One subscription-set mutation a callback may perform. -/
inductive BusOp where
  | add : Nat → BusOp
  | remove : Nat → BusOp
deriving DecidableEq

def applyOp (s : Listeners) : BusOp → Listeners
  | .add l => subscribeTransactionsChanged s l
  | .remove l => unsubscribeTransactionsChanged s l

def applyOps (s : Listeners) (ops : List BusOp) : Listeners := ops.foldl applyOp s

/-- Each listener's callback, described by the mutations it performs. -/
abbrev ListenerEffects := List (Nat × List BusOp)

def effectOf (eff : ListenerEffects) (l : Nat) : List BusOp :=
  match eff.find? (fun p => p.1 == l) with
  | some p => p.2
  | none => []

/-- The `Set.prototype.forEach` walk: visit index `i`; when the entry is a
live listener, run its callback (which may mutate the entry list) and
record the invocation, then move on; stop when the index reaches the
current length.  `fuel` bounds the walk (a callback that keeps deleting
and re-adding entries makes the real loop diverge). -/
def emitLoop (eff : ListenerEffects) : Nat → Nat → Listeners → List Nat → Listeners × List Nat
  | 0, _, s, log => (s, log)
  | fuel + 1, i, s, log =>
    if h : i < s.length then
      match s.get ⟨i, h⟩ with
      | some l => emitLoop eff fuel (i + 1) (applyOps s (effectOf eff l)) (log ++ [l])
      | none => emitLoop eff fuel (i + 1) s log
    else (s, log)

/-- Number of `add` operations in a callback. -/
def addsOf (ops : List BusOp) : Nat :=
  (ops.filter (fun o => match o with | .add _ => true | .remove _ => false)).length

def totalAdds (eff : ListenerEffects) : Nat := (eff.map (fun p => addsOf p.2)).sum

/-- Function `emitTransactionsChanged()`: run the `forEach` walk from index 0.
The fuel covers every entry ever appended when callbacks do not remove
entries: at most the initial entries plus one per add operation. -/
def emitTransactionsChanged (eff : ListenerEffects) (s : Listeners) : Listeners × List Nat :=
  emitLoop eff (s.length + totalAdds eff) 0 s []

/-- Live listener ids of the entry list, in order. -/
def idsOf (s : Listeners) : List Nat := s.filterMap (fun x => x)

def isAdd : BusOp → Bool
  | .add _ => true
  | .remove _ => false

/-- Callback descriptions that only subscribe (never unsubscribe). -/
def addsOnly (eff : ListenerEffects) : Prop :=
  ∀ p ∈ eff, ∀ o ∈ p.2, isAdd o = true

instance addsOnly.decidable (eff : ListenerEffects) : Decidable (addsOnly eff) := by
  unfold addsOnly; infer_instance

/-- Total adds of the callbacks whose listener is not in `visited`. -/
def remAdds (eff : ListenerEffects) (visited : List Nat) : Nat :=
  ((eff.filter (fun p => decide (p.1 ∉ visited))).map (fun p => addsOf p.2)).sum

/-! ## Error propagation in the resolver (part_005, lines 133-163)

Each `await db.getFirstAsync(...)` may reject, which rejects the whole
`getMonthlyBudgetsWithFallbackStatus` promise; the two queries per
category are abstracted as fallible lookups and the loop is replayed in
the `Except` monad. -/

/-- Function `getMonthlyBudgetsWithFallbackStatus` with fallible storage lookups:
`exactQ c` is the `month = ?` query and `fallbackQ c` the `month <= ?`
query for category `c`; any rejection aborts the whole call. -/
def resolveBudgetsStatusE (exactQ fallbackQ : String → Except String (Option ℚ)) :
    List String → Except String (List (String × ℚ) × List (String × Bool))
  | [] => .ok ([], [])
  | c :: rest => do
    let exactRow ← exactQ c
    match exactRow with
    | some a => do
      let (amounts, exacts) ← resolveBudgetsStatusE exactQ fallbackQ rest
      .ok ((c, a) :: amounts, (c, true) :: exacts)
    | none => do
      let fb ← fallbackQ c
      let (amounts, exacts) ← resolveBudgetsStatusE exactQ fallbackQ rest
      .ok ((c, fb.getD 0) :: amounts, (c, false) :: exacts)

/-! ## Form handlers (`TransactionForm.tsx` / part_002) -/

/-- The category allow-list hard-coded in the form components. -/
def categories : List String := ["fun", "groceries", "boucherie"]

inductive SubmitResult where
  | error : String → SubmitResult
  | saved : SubmitResult
deriving DecidableEq

/-- Expression `trimmedLabel === '' ? null : trimmedLabel`. -/
def normalizeLabel (label : String) : Option String :=
  if label.trim = "" then none else some label.trim

/-- Function `handleSubmit` from `TransactionForm.tsx`: the parsed amount is `none`
when `Number(...)` produced a non-finite value; the checks run in source
order and only the final branch touches storage. -/
def handleSubmit (parsedAmount : Option ℚ) (category : String) (dateValid dbReady : Bool)
    (label date : String) (nextId : Nat) (ts : List TransactionRow) :
    SubmitResult × List TransactionRow :=
  match parsedAmount with
  | none => (.error "Amount must be a number greater than 0.", ts)
  | some a =>
    if a ≤ 0 then (.error "Amount must be a number greater than 0.", ts)
    else if category ∉ categories then (.error "Category must be selected from the list.", ts)
    else if !dateValid then (.error "Transaction date is required.", ts)
    else if !dbReady then (.error "Database is not ready.", ts)
    else (.saved, insertTransaction ts nextId a category (normalizeLabel label) date)

/-- Function `handleEditSave` from the transaction list screen (part_002): selection
check, then the same validations, then `updateTransaction`. -/
def handleEditSave (selectedIds : List Nat) (parsedAmount : Option ℚ) (category : String)
    (dateValid : Bool) (label date : String) (ts : List TransactionRow) :
    SubmitResult × List TransactionRow :=
  if selectedIds.length ≠ 1 then (.error "Select a single transaction to edit.", ts)
  else
    match parsedAmount with
    | none => (.error "Amount must be a number greater than 0.", ts)
    | some a =>
      if a ≤ 0 then (.error "Amount must be a number greater than 0.", ts)
      else if category ∉ categories then (.error "Category must be selected from the list.", ts)
      else if !dateValid then (.error "Transaction date is required.", ts)
      else (.saved, updateTransaction ts (selectedIds.headD 0) a category (normalizeLabel label) date)

/-! ## Donut chart geometry (`DonutChart.tsx` / part_004)

`Math.PI` is kept as a parameter `pi`; the claims only use that it is
nonnegative. -/

/-- Line `const clamped = Math.max(0, Math.min(1, progress))`. -/
def clampedProgress (progress : ℚ) : ℚ := max 0 (min 1 progress)

/-- Line `const radius = (size - strokeWidth) / 2`. -/
def donutRadius (size strokeWidth : ℚ) : ℚ := (size - strokeWidth) / 2

/-- Line `const circumference = 2 * Math.PI * radius`. -/
def donutCircumference (pi size strokeWidth : ℚ) : ℚ :=
  2 * pi * donutRadius size strokeWidth

/-- Line `const dash = circumference * clamped`, the drawn arc length in
`strokeDasharray`. -/
def donutDash (pi size strokeWidth progress : ℚ) : ℚ :=
  donutCircumference pi size strokeWidth * clampedProgress progress

/-! ## Helper lemmas: decidability bridges for the TEXT order -/

theorem decide_textLe_true {a b : String} (h : textLe a b) : decide (textLe a b) = true :=
  decide_eq_true h

theorem decide_textLt_true {a b : String} (h : textLt a b) : decide (textLt a b) = true :=
  decide_eq_true h

theorem decide_textLe_false {a b : String} (h : ¬ textLe a b) : decide (textLe a b) = false :=
  decide_eq_false h

theorem decide_textLt_false {a b : String} (h : ¬ textLt a b) : decide (textLt a b) = false :=
  decide_eq_false h

/-! ## Helper lemmas: the exact-month lookup -/

theorem findExact_some {bs : List BudgetRow} {c M : String} {b : BudgetRow}
    (h : findExact bs c M = some b) : b ∈ bs ∧ b.category = c ∧ b.month = M := by
  refine ⟨List.mem_of_find?_eq_some h, ?_, ?_⟩ <;>
  · have hp := List.find?_some h
    simp only [Bool.and_eq_true, decide_eq_true_eq] at hp
    tauto

theorem findExact_eq_none {bs : List BudgetRow} {c M : String}
    (h : ∀ b ∈ bs, ¬ (b.category = c ∧ b.month = M)) : findExact bs c M = none := by
  rw [findExact, List.find?_eq_none]
  intro x hx
  simp only [Bool.and_eq_true, decide_eq_true_eq, not_and]
  intro h1 h2
  exact h x hx ⟨h1, h2⟩

theorem findExact_isSome {bs : List BudgetRow} {c M : String} {b : BudgetRow}
    (hb : b ∈ bs) (hc : b.category = c) (hm : b.month = M) :
    ∃ r, findExact bs c M = some r := by
  rw [← Option.isSome_iff_exists, findExact, List.find?_isSome]
  exact ⟨b, hb, by simp [hc, hm]⟩

/-! ## Helper lemmas: the `month <= ?` fallback lookup -/

theorem foldl_laterOf_spec (l : List BudgetRow) :
    ∀ acc : Option BudgetRow,
      (l.foldl laterOf acc = none → acc = none ∧ l = []) ∧
      ∀ b, l.foldl laterOf acc = some b →
        (acc = some b ∨ b ∈ l) ∧ (∀ a, acc = some a → textLe a.month b.month) ∧
        ∀ x ∈ l, textLe x.month b.month := by
  induction l with
  | nil =>
    intro acc
    constructor
    · intro h
      exact ⟨h, rfl⟩
    · intro b h
      refine ⟨Or.inl h, ?_, by simp⟩
      intro a ha
      rw [ha] at h
      cases h
      exact textLe_refl _
  | cons x xs ih =>
    intro acc
    have hstep : (x :: xs).foldl laterOf acc = xs.foldl laterOf (laterOf acc x) := rfl
    constructor
    · intro h
      rw [hstep] at h
      have h2 := (ih (laterOf acc x)).1 h
      exfalso
      cases acc with
      | none => simp [laterOf] at h2
      | some a =>
        rcases h2 with ⟨h2, -⟩
        by_cases hlt : textLt a.month x.month <;> simp [laterOf, hlt] at h2
    · intro b h
      rw [hstep] at h
      obtain ⟨hmem, hacc, hall⟩ := (ih (laterOf acc x)).2 b h
      cases acc with
      | none =>
        simp only [laterOf] at hmem hacc
        constructor
        · rcases hmem with hx | hx
          · cases hx
            exact Or.inr (List.mem_cons_self x xs)
          · exact Or.inr (List.mem_cons_of_mem x hx)
        · constructor
          · intro a ha
            cases ha
          · intro y hy
            rcases List.mem_cons.mp hy with rfl | hy
            · exact hacc y rfl
            · exact hall y hy
      | some a =>
        by_cases hlt : textLt a.month x.month
        · simp only [laterOf, if_pos hlt] at hmem hacc
          constructor
          · rcases hmem with hx | hx
            · cases hx
              exact Or.inr (List.mem_cons_self x xs)
            · exact Or.inr (List.mem_cons_of_mem x hx)
          · have hxb : textLe x.month b.month := hacc x rfl
            refine ⟨?_, ?_⟩
            · intro a' ha'
              cases ha'
              exact textLe_trans (textLe_of_lt hlt) hxb
            · intro y hy
              rcases List.mem_cons.mp hy with rfl | hy
              · exact hxb
              · exact hall y hy
        · simp only [laterOf, if_neg hlt] at hmem hacc
          have hab : textLe a.month b.month := hacc a rfl
          constructor
          · rcases hmem with hx | hx
            · exact Or.inl hx
            · exact Or.inr (List.mem_cons_of_mem x hx)
          · refine ⟨?_, ?_⟩
            · intro a' ha'
              cases ha'
              exact hab
            · intro y hy
              rcases List.mem_cons.mp hy with rfl | hy
              · exact textLe_trans (textLe_of_not_lt hlt) hab
              · exact hall y hy

theorem findFallback_some {bs : List BudgetRow} {c M : String} {b : BudgetRow}
    (h : findFallback bs c M = some b) :
    b ∈ bs ∧ b.category = c ∧ textLe b.month M ∧
      ∀ x ∈ bs, x.category = c → textLe x.month M → textLe x.month b.month := by
  obtain ⟨hmem, -, hall⟩ := (foldl_laterOf_spec _ none).2 b h
  have hbf : b ∈ bs.filter
      (fun b => decide (b.category = c) && decide (textLe b.month M)) := by
    rcases hmem with hx | hx
    · cases hx
    · exact hx
  have hb := List.mem_filter.mp hbf
  simp only [Bool.and_eq_true, decide_eq_true_eq] at hb
  refine ⟨hb.1, hb.2.1, hb.2.2, ?_⟩
  intro x hx hxc hxm
  exact hall x (List.mem_filter.mpr (by simp [hx, hxc, hxm]))

theorem findFallback_eq_none {bs : List BudgetRow} {c M : String}
    (h : ∀ b ∈ bs, b.category = c → ¬ textLe b.month M) : findFallback bs c M = none := by
  rw [findFallback]
  have : bs.filter (fun b => decide (b.category = c) && decide (textLe b.month M)) = [] := by
    rw [List.filter_eq_nil_iff]
    intro x hx
    simp only [Bool.and_eq_true, decide_eq_true_eq, not_and]
    exact h x hx
  rw [this]
  rfl

theorem findFallback_isSome {bs : List BudgetRow} {c M : String} {b : BudgetRow}
    (hb : b ∈ bs) (hc : b.category = c) (hm : textLe b.month M) :
    ∃ r, findFallback bs c M = some r := by
  cases hr : findFallback bs c M with
  | some r => exact ⟨r, rfl⟩
  | none =>
    have h2 := (foldl_laterOf_spec _ none).1 hr
    have : b ∈ bs.filter
        (fun b => decide (b.category = c) && decide (textLe b.month M)) :=
      List.mem_filter.mpr (by simp [hb, hc, hm])
    rw [h2.2] at this
    cases this

/-! ## Helper lemmas: the uniqueness invariant -/

theorem budgetInvariant_unique {bs : List BudgetRow} (h : budgetInvariant bs)
    {a b : BudgetRow} (ha : a ∈ bs) (hb : b ∈ bs)
    (hm : a.month = b.month) (hc : a.category = b.category) : a = b := by
  by_contra hne
  have hsymm : Symmetric (fun a b : BudgetRow =>
      ¬ (a.month = b.month ∧ a.category = b.category)) := by
    intro u v huv ⟨h1, h2⟩
    exact huv ⟨h1.symm, h2.symm⟩
  exact h.forall hsymm ha hb hne ⟨hm, hc⟩

/-! ## Helper lemmas: unfolding the resolver -/

theorem resolveBudgetStatus_exact {bs : List BudgetRow} {M c : String} {row : BudgetRow}
    (h : findExact bs c M = some row) : resolveBudgetStatus bs M c = ⟨row.amount, true⟩ := by
  rw [resolveBudgetStatus, h]

theorem resolveBudgetStatus_fb {bs : List BudgetRow} {M c : String} {row : BudgetRow}
    (hE : findExact bs c M = none) (hF : findFallback bs c M = some row) :
    resolveBudgetStatus bs M c = ⟨row.amount, false⟩ := by
  rw [resolveBudgetStatus, hE, hF]

theorem resolveBudgetStatus_default {bs : List BudgetRow} {M c : String}
    (hE : findExact bs c M = none) (hF : findFallback bs c M = none) :
    resolveBudgetStatus bs M c = ⟨0, false⟩ := by
  rw [resolveBudgetStatus, hE, hF]

/-! ## Helper lemmas: upsert and delete -/

theorem find?_append_none {α : Type} {p : α → Bool} {l₁ l₂ : List α}
    (h : l₁.find? p = none) : (l₁ ++ l₂).find? p = l₂.find? p := by
  induction l₁ with
  | nil => rfl
  | cons a l ih =>
    cases hpa : p a with
    | true =>
      rw [List.find?_cons_of_pos _ hpa] at h
      cases h
    | false =>
      have hpa' : ¬ p a = true := by simp [hpa]
      rw [List.find?_cons_of_neg _ hpa'] at h
      rw [List.cons_append, List.find?_cons_of_neg _ hpa']
      exact ih h

theorem upsertBudget_pos {bs : List BudgetRow} {M c : String} {x : ℚ}
    (h : ∃ b ∈ bs, b.month = M ∧ b.category = c) :
    upsertBudget bs M c x = bs.map (fun b =>
      if b.month = M ∧ b.category = c then ⟨b.month, b.category, x⟩ else b) := by
  rw [upsertBudget, if_pos]
  rw [List.any_eq_true]
  obtain ⟨b, hb, h1, h2⟩ := h
  exact ⟨b, hb, by simp [h1, h2]⟩

theorem upsertBudget_neg {bs : List BudgetRow} {M c : String} {x : ℚ}
    (h : ¬ ∃ b ∈ bs, b.month = M ∧ b.category = c) :
    upsertBudget bs M c x = bs ++ [⟨M, c, x⟩] := by
  rw [upsertBudget, if_neg]
  rw [List.any_eq_true]
  intro ⟨b, hb, hp⟩
  simp only [Bool.and_eq_true, decide_eq_true_eq] at hp
  exact h ⟨b, hb, hp⟩

/-- Under the invariant, the rows matching a `(month, category)` key form
exactly one row. -/
theorem filter_key_singleton {bs : List BudgetRow} {M c : String}
    (hinv : budgetInvariant bs) {b0 : BudgetRow}
    (hb0 : b0 ∈ bs) (hm : b0.month = M) (hc : b0.category = c) :
    bs.filter (fun b => decide (b.month = M) && decide (b.category = c)) = [b0] := by
  have hmem : b0 ∈ bs.filter (fun b => decide (b.month = M) && decide (b.category = c)) :=
    List.mem_filter.mpr ⟨hb0, by simp [hm, hc]⟩
  have hpw := hinv.filter (fun b => decide (b.month = M) && decide (b.category = c))
  cases hfl : bs.filter (fun b => decide (b.month = M) && decide (b.category = c)) with
  | nil =>
    rw [hfl] at hmem
    cases hmem
  | cons y ys =>
    have hyf : y ∈ bs.filter (fun b => decide (b.month = M) && decide (b.category = c)) := by
      rw [hfl]
      exact List.mem_cons_self y ys
    have hy := List.mem_filter.mp hyf
    simp only [Bool.and_eq_true, decide_eq_true_eq] at hy
    have hyb : y = b0 := budgetInvariant_unique hinv hy.1 hb0
      (hy.2.1.trans hm.symm) (hy.2.2.trans hc.symm)
    cases ys with
    | nil => rw [hyb]
    | cons z zs =>
      exfalso
      rw [hfl] at hpw
      have hz : z ∈ bs.filter (fun b => decide (b.month = M) && decide (b.category = c)) := by
        rw [hfl]
        exact List.mem_cons_of_mem y (List.mem_cons_self z zs)
      have hzp := List.mem_filter.mp hz
      simp only [Bool.and_eq_true, decide_eq_true_eq] at hzp
      have hR := (List.pairwise_cons.mp hpw).1 z (List.mem_cons_self z zs)
      exact hR ⟨hy.2.1.trans hzp.2.1.symm, hy.2.2.trans hzp.2.2.symm⟩

/-- C4: `setBudget` (`upsertBudget`) is an idempotent upsert: under the
uniqueness invariant, a second identical call leaves the state unchanged,
and after the call exactly one budget row matches `(M, c)`, carrying
amount `x`. -/
theorem upsertBudget_idempotent (bs : List BudgetRow) (M c : String) (x : ℚ)
    (hinv : budgetInvariant bs) :
    upsertBudget (upsertBudget bs M c x) M c x = upsertBudget bs M c x ∧
    (upsertBudget bs M c x).filter
      (fun b => decide (b.month = M) && decide (b.category = c)) = [⟨M, c, x⟩] := by
  have fidem : ∀ b : BudgetRow,
      (if (if b.month = M ∧ b.category = c then
            (⟨b.month, b.category, x⟩ : BudgetRow) else b).month = M ∧
          (if b.month = M ∧ b.category = c then
            (⟨b.month, b.category, x⟩ : BudgetRow) else b).category = c then
        (⟨(if b.month = M ∧ b.category = c then
            (⟨b.month, b.category, x⟩ : BudgetRow) else b).month,
          (if b.month = M ∧ b.category = c then
            (⟨b.month, b.category, x⟩ : BudgetRow) else b).category, x⟩ : BudgetRow)
      else (if b.month = M ∧ b.category = c then
        (⟨b.month, b.category, x⟩ : BudgetRow) else b)) =
      (if b.month = M ∧ b.category = c then (⟨b.month, b.category, x⟩ : BudgetRow) else b) := by
    intro b
    by_cases hb : b.month = M ∧ b.category = c <;> simp [hb]
  by_cases h : ∃ b ∈ bs, b.month = M ∧ b.category = c
  · obtain ⟨b0, hb0, hm, hc⟩ := h
    have h1 := upsertBudget_pos ⟨b0, hb0, hm, hc⟩ (x := x)
    have hpos2 : ∃ b ∈ bs.map (fun b =>
        if b.month = M ∧ b.category = c then (⟨b.month, b.category, x⟩ : BudgetRow) else b),
        b.month = M ∧ b.category = c := by
      refine ⟨(⟨b0.month, b0.category, x⟩ : BudgetRow), ?_, by simp [hm, hc]⟩
      have := List.mem_map_of_mem (fun b =>
        if b.month = M ∧ b.category = c then (⟨b.month, b.category, x⟩ : BudgetRow) else b) hb0
      simpa [hm, hc] using this
    constructor
    · rw [h1, upsertBudget_pos hpos2, List.map_map]
      apply List.map_congr_left
      intro b _
      exact fidem b
    · rw [h1, List.filter_map]
      have hpf : ∀ b ∈ bs,
          ((fun b : BudgetRow => decide (b.month = M) && decide (b.category = c)) ∘
            (fun b : BudgetRow =>
              if b.month = M ∧ b.category = c then ⟨b.month, b.category, x⟩ else b)) b =
          (fun b : BudgetRow => decide (b.month = M) && decide (b.category = c)) b := by
        intro b _
        by_cases hb : b.month = M ∧ b.category = c <;> simp [hb]
      rw [List.filter_congr hpf, filter_key_singleton hinv hb0 hm hc]
      simp [hm, hc]
  · have h1 := upsertBudget_neg h (x := x)
    have hpos2 : ∃ b ∈ bs ++ [(⟨M, c, x⟩ : BudgetRow)], b.month = M ∧ b.category = c :=
      ⟨⟨M, c, x⟩, by simp, rfl, rfl⟩
    have hmapid : bs.map (fun b =>
        if b.month = M ∧ b.category = c then (⟨b.month, b.category, x⟩ : BudgetRow) else b) =
        bs := by
      have := List.map_congr_left (f := fun b : BudgetRow =>
        if b.month = M ∧ b.category = c then (⟨b.month, b.category, x⟩ : BudgetRow) else b)
        (g := id) (l := bs) ?_
      · rw [this, List.map_id]
      · intro b hb
        have : ¬ (b.month = M ∧ b.category = c) := fun hk => h ⟨b, hb, hk⟩
        simp [this]
    constructor
    · rw [h1, upsertBudget_pos hpos2, List.map_append, hmapid]
      simp
    · rw [h1, List.filter_append]
      have hnil : bs.filter
          (fun b => decide (b.month = M) && decide (b.category = c)) = [] := by
        rw [List.filter_eq_nil_iff]
        intro b hb
        simp only [Bool.and_eq_true, decide_eq_true_eq, not_and]
        intro h1' h2'
        exact h ⟨b, hb, h1', h2'⟩
      rw [hnil]
      simp

/-- C5: `resetBudget` after `setBudget` is a round-trip back to fallback
resolution: after `setBudget(M, c, x)` resolution for `(M, c)` is
`{amount: x, exact: true}`; deleting the exact-month row afterwards yields
exactly the state obtained by deleting any `(M, c)` row from the original,
so resolution returns what it would on the state without any `(M, c)` row;
and `resetBudget` on a state with no `(M, c)` row is a no-op. -/
theorem resetBudget_roundtrip (bs : List BudgetRow) (M c : String) (x : ℚ) :
    resolveBudgetStatus (upsertBudget bs M c x) M c = ⟨x, true⟩ ∧
    deleteBudgetForMonth (upsertBudget bs M c x) M c = deleteBudgetForMonth bs M c ∧
    resolveBudgetStatus (deleteBudgetForMonth (upsertBudget bs M c x) M c) M c =
      resolveBudgetStatus (deleteBudgetForMonth bs M c) M c ∧
    ((∀ b ∈ bs, ¬ (b.month = M ∧ b.category = c)) → deleteBudgetForMonth bs M c = bs) := by
  have hdel : deleteBudgetForMonth (upsertBudget bs M c x) M c = deleteBudgetForMonth bs M c := by
    by_cases h : ∃ b ∈ bs, b.month = M ∧ b.category = c
    · rw [upsertBudget_pos h, deleteBudgetForMonth, deleteBudgetForMonth, List.filter_map]
      have hqf : ∀ b ∈ bs,
          ((fun b : BudgetRow => !(decide (b.month = M) && decide (b.category = c))) ∘
            (fun b : BudgetRow =>
              if b.month = M ∧ b.category = c then ⟨b.month, b.category, x⟩ else b)) b =
          (fun b : BudgetRow => !(decide (b.month = M) && decide (b.category = c))) b := by
        intro b _
        by_cases hb : b.month = M ∧ b.category = c <;> simp [hb]
      rw [List.filter_congr hqf]
      have hmc : (bs.filter
            (fun b => !(decide (b.month = M) && decide (b.category = c)))).map
          (fun b : BudgetRow =>
            if b.month = M ∧ b.category = c then ⟨b.month, b.category, x⟩ else b) =
          (bs.filter
            (fun b => !(decide (b.month = M) && decide (b.category = c)))).map id := by
        apply List.map_congr_left
        intro b hb
        have hbq := (List.mem_filter.mp hb).2
        simp only [Bool.not_eq_eq_eq_not, Bool.not_true, Bool.and_eq_false_iff,
          decide_eq_false_iff_not] at hbq
        have : ¬ (b.month = M ∧ b.category = c) := by
          intro hk
          rcases hbq with h1 | h2
          · exact h1 hk.1
          · exact h2 hk.2
        simp [this]
      rw [hmc, List.map_id]
    · rw [upsertBudget_neg h, deleteBudgetForMonth, deleteBudgetForMonth, List.filter_append]
      have : ([(⟨M, c, x⟩ : BudgetRow)].filter
          (fun b => !(decide (b.month = M) && decide (b.category = c)))) = [] := by
        simp
      rw [this]
      simp
  refine ⟨?_, hdel, by rw [hdel], ?_⟩
  · by_cases h : ∃ b ∈ bs, b.month = M ∧ b.category = c
    · rw [upsertBudget_pos h]
      obtain ⟨b0, hb0, hm0, hc0⟩ := h
      have hsome : ∃ r, bs.find?
          (fun b => decide (b.category = c) && decide (b.month = M)) = some r := by
        rw [← Option.isSome_iff_exists, List.find?_isSome]
        exact ⟨b0, hb0, by simp [hm0, hc0]⟩
      obtain ⟨r, hr⟩ := hsome
      have hrp := List.find?_some hr
      simp only [Bool.and_eq_true, decide_eq_true_eq] at hrp
      have hEmap : findExact (bs.map (fun b =>
          if b.month = M ∧ b.category = c then ⟨b.month, b.category, x⟩ else b)) c M =
          some (⟨r.month, r.category, x⟩ : BudgetRow) := by
        rw [findExact, List.find?_map]
        have hpf : ((fun b : BudgetRow => decide (b.category = c) && decide (b.month = M)) ∘
            (fun b : BudgetRow =>
              if b.month = M ∧ b.category = c then ⟨b.month, b.category, x⟩ else b)) =
            (fun b : BudgetRow => decide (b.category = c) && decide (b.month = M)) := by
          funext b
          by_cases hb : b.month = M ∧ b.category = c <;> simp [hb]
        rw [hpf, hr]
        simp [hrp.2, hrp.1]
      rw [resolveBudgetStatus_exact hEmap]
    · rw [upsertBudget_neg h]
      have hnone : bs.find?
          (fun b => decide (b.category = c) && decide (b.month = M)) = none := by
        rw [List.find?_eq_none]
        intro b hb
        simp only [Bool.and_eq_true, decide_eq_true_eq, not_and]
        intro h1 h2
        exact h ⟨b, hb, h2, h1⟩
      have hE : findExact (bs ++ [(⟨M, c, x⟩ : BudgetRow)]) c M =
          some (⟨M, c, x⟩ : BudgetRow) := by
        rw [findExact, find?_append_none hnone]
        simp
      rw [resolveBudgetStatus_exact hE]
  · intro h
    rw [deleteBudgetForMonth, List.filter_eq_self]
    intro b hb
    have : ¬ (b.month = M ∧ b.category = c) := h b hb
    simp only [Bool.not_eq_eq_eq_not, Bool.not_true, Bool.and_eq_false_iff,
      decide_eq_false_iff_not]
    tauto

/-- Witness for C5: setting then resetting the June `fun` budget over a
January-only state, and the no-op reset on that state. -/
theorem resetBudget_roundtrip_witness :
    resolveBudgetStatus (upsertBudget [⟨"2024-01", "fun", 50⟩] "2024-06" "fun" 80)
        "2024-06" "fun" = ⟨80, true⟩ ∧
    deleteBudgetForMonth [⟨"2024-01", "fun", 50⟩] "2024-06" "fun" = [⟨"2024-01", "fun", 50⟩] :=
  ⟨(resetBudget_roundtrip [⟨"2024-01", "fun", 50⟩] "2024-06" "fun" 80).1,
   (resetBudget_roundtrip [⟨"2024-01", "fun", 50⟩] "2024-06" "fun" 80).2.2.2 (by decide)⟩

/-- Witness for C4: setting the June `fun` budget twice on a one-row state. -/
theorem upsertBudget_idempotent_witness :
    upsertBudget (upsertBudget [⟨"2024-01", "fun", 50⟩] "2024-06" "fun" 80) "2024-06" "fun" 80 =
      upsertBudget [⟨"2024-01", "fun", 50⟩] "2024-06" "fun" 80 ∧
    (upsertBudget [⟨"2024-01", "fun", 50⟩] "2024-06" "fun" 80).filter
      (fun b => decide (b.month = "2024-06") && decide (b.category = "fun")) =
      [⟨"2024-06", "fun", 80⟩] :=
  upsertBudget_idempotent [⟨"2024-01", "fun", 50⟩] "2024-06" "fun" 80 (by decide)

/-! ## Helper lemmas: the monthly totals query -/

theorem inDateRange_iff {t : TransactionRow} {s e : String} :
    inDateRange t s e = true ↔ textLe s t.date ∧ textLt t.date e := by
  simp [inDateRange]

theorem lookup_map_keys {α : Type} (f : String → α) (keys : List String) (c : String) :
    (keys.map (fun k => (k, f k))).lookup c = if c ∈ keys then some (f c) else none := by
  induction keys with
  | nil => simp
  | cons k ks ih =>
    by_cases h : c = k
    · subst h
      simp [List.lookup]
    · have hk : (c == k) = false := by simp [h]
      simp only [List.map_cons, List.lookup, hk, ih, List.mem_cons]
      rw [if_congr (iff_of_eq (congrArg _ rfl)) rfl rfl]
      by_cases hm : c ∈ ks <;> simp [h, hm]

theorem totals_lookup (ts : List TransactionRow) (s e c : String) :
    (getMonthlyCategoryTotals ts s e).lookup c =
      if ∃ t ∈ ts, t.category = c ∧ inDateRange t s e = true
      then some (categoryTotal ts s e c) else none := by
  rw [getMonthlyCategoryTotals, lookup_map_keys]
  by_cases hq : ∃ t ∈ ts, t.category = c ∧ inDateRange t s e = true
  · have hc : c ∈ ((ts.filter (fun t => inDateRange t s e)).map
        TransactionRow.category).dedup := by
      simp only [List.mem_dedup, List.mem_map, List.mem_filter]
      obtain ⟨t, ht, htc, htr⟩ := hq
      exact ⟨t, ⟨ht, htr⟩, htc⟩
    rw [if_pos hc, if_pos hq]
  · have hc : c ∉ ((ts.filter (fun t => inDateRange t s e)).map
        TransactionRow.category).dedup := by
      simp only [List.mem_dedup, List.mem_map, List.mem_filter]
      intro ⟨t, ⟨ht, htr⟩, htc⟩
      exact hq ⟨t, ht, htc, htr⟩
    rw [if_neg hc, if_neg hq]

/-- C2: `totalsByCategory` (`getMonthlyCategoryTotals`) returns, for each
category with at least one transaction dated in `[monthStart, monthEnd)`,
the sum of the amounts of exactly those transactions; a transaction dated
exactly `monthEnd` is excluded, one dated exactly `monthStart` is
included, and categories with no transaction in range are absent. -/
theorem totalsByCategory_range_sums (ts : List TransactionRow) (s e : String)
    (hse : textLt s e) :
    (∀ c, (∃ t ∈ ts, t.category = c ∧ textLe s t.date ∧ textLt t.date e) →
        (getMonthlyCategoryTotals ts s e).lookup c =
          some (((ts.filter (fun t => decide (t.category = c) &&
              decide (textLe s t.date) && decide (textLt t.date e))).map
            TransactionRow.amount).sum)) ∧
    (∀ c, (∀ t ∈ ts, ¬ (t.category = c ∧ textLe s t.date ∧ textLt t.date e)) →
        (getMonthlyCategoryTotals ts s e).lookup c = none) ∧
    (∀ t : TransactionRow, t.date = e → inDateRange t s e = false) ∧
    (∀ t : TransactionRow, t.date = s → inDateRange t s e = true) := by
  refine ⟨?_, ?_, ?_, ?_⟩
  · intro c hc
    rw [totals_lookup, if_pos]
    · rw [categoryTotal, List.filter_congr]
      intro t _
      rw [inDateRange]
      cases hd1 : decide (textLe s t.date) <;> cases hd2 : decide (textLt t.date e) <;>
        cases hd3 : decide (t.category = c) <;> rfl
    · obtain ⟨t, ht, htc, htr⟩ := hc
      exact ⟨t, ht, htc, inDateRange_iff.mpr htr⟩
  · intro c hc
    rw [totals_lookup, if_neg]
    intro ⟨t, ht, htc, htr⟩
    exact hc t ht ⟨htc, inDateRange_iff.mp htr⟩
  · intro t ht
    rw [inDateRange, ht, decide_textLt_false (lt_irrefl _)]
    simp
  · intro t ht
    rw [inDateRange, ht, decide_textLe_true (textLe_refl s), decide_textLt_true hse]
    rfl

/-- Witness for C2: June transactions; the row dated exactly at the end
bound is excluded. -/
theorem totalsByCategory_range_sums_witness :
    (getMonthlyCategoryTotals
        [⟨1, 5, "fun", none, "2024-06-01"⟩, ⟨2, 7, "fun", none, "2024-07-01"⟩]
        "2024-06-01" "2024-07-01").lookup "fun" = some 5 := by
  have h := (totalsByCategory_range_sums
      [⟨1, 5, "fun", none, "2024-06-01"⟩, ⟨2, 7, "fun", none, "2024-07-01"⟩]
      "2024-06-01" "2024-07-01" (by decide)).1 "fun"
      ⟨⟨1, 5, "fun", none, "2024-06-01"⟩, by decide, rfl, by decide, by decide⟩
  rw [h]
  have hf : ([⟨1, 5, "fun", none, "2024-06-01"⟩,
      ⟨2, 7, "fun", none, "2024-07-01"⟩] : List TransactionRow).filter
        (fun t => decide (t.category = "fun") && decide (textLe "2024-06-01" t.date) &&
          decide (textLt t.date "2024-07-01")) =
      [⟨1, 5, "fun", none, "2024-06-01"⟩] := by decide
  rw [hf]
  simp

/-! ## Helper lemmas: deletion -/

theorem deleteTransactions_eq_filter (ts : List TransactionRow) (ids : List Nat) :
    deleteTransactions ts ids = ts.filter (fun t => decide (t.id ∉ ids)) := by
  rw [deleteTransactions]
  by_cases h : ids.isEmpty
  · rw [if_pos h]
    have : ids = [] := List.isEmpty_iff.mp h
    subst this
    symm
    rw [List.filter_eq_self]
    intro t _
    simp
  · rw [if_neg h]

/-- C6: `deleteTransactions(ids)` removes exactly the transactions whose
id is in `ids` and leaves every other transaction unchanged; a subsequent
totals query reflects the removal; deleting an empty id set changes
nothing. -/
theorem deleteTransactions_removes_exactly (ts : List TransactionRow) (ids : List Nat) :
    deleteTransactions ts [] = ts ∧
    (∀ t, t ∈ deleteTransactions ts ids ↔ t ∈ ts ∧ t.id ∉ ids) ∧
    ∀ s e c,
      ((∃ t ∈ ts, t.id ∉ ids ∧ t.category = c ∧ inDateRange t s e = true) →
        (getMonthlyCategoryTotals (deleteTransactions ts ids) s e).lookup c =
          some (((ts.filter (fun t => decide (t.id ∉ ids) &&
              (inDateRange t s e && decide (t.category = c)))).map
            TransactionRow.amount).sum)) ∧
      ((∀ t ∈ ts, ¬ (t.id ∉ ids ∧ t.category = c ∧ inDateRange t s e = true)) →
        (getMonthlyCategoryTotals (deleteTransactions ts ids) s e).lookup c = none) := by
  refine ⟨by rw [deleteTransactions]; simp, ?_, ?_⟩
  · intro t
    rw [deleteTransactions_eq_filter]
    simp [List.mem_filter]
  · intro s e c
    rw [deleteTransactions_eq_filter, totals_lookup]
    constructor
    · intro hc
      rw [if_pos]
      · rw [categoryTotal, List.filter_filter]
        congr 3
        apply List.filter_congr
        intro t _
        cases hd1 : decide (t.id ∉ ids) <;> cases hd2 : inDateRange t s e <;>
          cases hd3 : decide (t.category = c) <;> rfl
      · obtain ⟨t, ht, hti, htc, htr⟩ := hc
        exact ⟨t, List.mem_filter.mpr ⟨ht, by simp [hti]⟩, htc, htr⟩
    · intro hc
      rw [if_neg]
      intro ⟨t, ht, htc, htr⟩
      have ht' := List.mem_filter.mp ht
      simp only [decide_eq_true_eq] at ht'
      exact hc t ht'.1 ⟨ht'.2, htc, htr⟩

/-- Witness for C6: deleting id 2 leaves only the first June row in the
totals. -/
theorem deleteTransactions_removes_exactly_witness :
    (getMonthlyCategoryTotals
        (deleteTransactions
          [⟨1, 5, "fun", none, "2024-06-01"⟩, ⟨2, 7, "fun", none, "2024-06-02"⟩] [2])
        "2024-06-01" "2024-07-01").lookup "fun" = some 5 := by
  have h := ((deleteTransactions_removes_exactly
      [⟨1, 5, "fun", none, "2024-06-01"⟩, ⟨2, 7, "fun", none, "2024-06-02"⟩] [2]).2.2
      "2024-06-01" "2024-07-01" "fun").1
      ⟨⟨1, 5, "fun", none, "2024-06-01"⟩, by decide, by decide, rfl, by decide⟩
  rw [h]
  have hf : ([⟨1, 5, "fun", none, "2024-06-01"⟩,
      ⟨2, 7, "fun", none, "2024-06-02"⟩] : List TransactionRow).filter
        (fun t => decide (t.id ∉ ([2] : List Nat)) &&
          (inDateRange t "2024-06-01" "2024-07-01" && decide (t.category = "fun"))) =
      [⟨1, 5, "fun", none, "2024-06-01"⟩] := by decide
  rw [hf]
  simp

/-! ## Claim theorems -/

/-- C1: budget resolution per category follows the three-step fallback
algorithm: under the at-most-one-row-per-`(month, category)` invariant,
(1) when a row keyed `(M, c)` exists the resolver returns `exact = true`
with that row's amount; (2) when no such row exists but some row for `c`
has `month <= M`, it returns `exact = false` with the amount of a row for
`c` at the greatest month `<= M`; (3) when no row for `c` is at or before
`M`, it returns `exact = false` and amount `0`. -/
theorem budget_resolution_three_step_fallback (bs : List BudgetRow) (M c : String)
    (hinv : budgetInvariant bs) :
    (∀ b ∈ bs, b.month = M → b.category = c →
        resolveBudgetStatus bs M c = ⟨b.amount, true⟩) ∧
    ((∀ b ∈ bs, ¬ (b.month = M ∧ b.category = c)) →
      ∀ b ∈ bs, b.category = c → textLe b.month M →
        ∃ r ∈ bs, r.category = c ∧ textLe r.month M ∧
          (∀ x ∈ bs, x.category = c → textLe x.month M → textLe x.month r.month) ∧
          resolveBudgetStatus bs M c = ⟨r.amount, false⟩) ∧
    ((∀ b ∈ bs, b.category = c → ¬ textLe b.month M) →
      resolveBudgetStatus bs M c = ⟨0, false⟩) := by
  refine ⟨?_, ?_, ?_⟩
  · intro b hb hbm hbc
    obtain ⟨r, hr⟩ := findExact_isSome hb hbc hbm
    obtain ⟨hrmem, hrc, hrm⟩ := findExact_some hr
    have : r = b := budgetInvariant_unique hinv hrmem hb (hrm.trans hbm.symm) (hrc.trans hbc.symm)
    rw [resolveBudgetStatus_exact hr, this]
  · intro hnone b hb hbc hbm
    have hE : findExact bs c M = none := by
      apply findExact_eq_none
      intro x hx hxp
      exact hnone x hx ⟨hxp.2, hxp.1⟩
    obtain ⟨r, hr⟩ := findFallback_isSome hb hbc hbm
    obtain ⟨hrmem, hrc, hrm, hrmax⟩ := findFallback_some hr
    exact ⟨r, hrmem, hrc, hrm, hrmax, resolveBudgetStatus_fb hE hr⟩
  · intro hnone
    have hE : findExact bs c M = none := by
      apply findExact_eq_none
      intro x hx hxp
      exact hnone x hx hxp.1 (hxp.2 ▸ textLe_refl M)
    have hF : findFallback bs c M = none := findFallback_eq_none hnone
    exact resolveBudgetStatus_default hE hF

/-- Witness for C1: concrete runs of all three branches of the algorithm. -/
theorem budget_resolution_three_step_fallback_witness :
    resolveBudgetStatus [⟨"2024-01", "fun", 50⟩, ⟨"2024-06", "fun", 80⟩] "2024-06" "fun" =
      ⟨80, true⟩ :=
  (budget_resolution_three_step_fallback [⟨"2024-01", "fun", 50⟩, ⟨"2024-06", "fun", 80⟩]
      "2024-06" "fun" (by decide)).1
    ⟨"2024-06", "fun", 80⟩ (by decide) rfl rfl

/-- C9: the two resolver variants agree — under the uniqueness invariant,
`getMonthlyBudgetsWithFallback` equals the `amounts` part of
`getMonthlyBudgetsWithFallbackStatus` on the same state: the
exact-row-first lookup followed by the `month <= M` fallback yields the
same amount as the single `month <= M` lookup. -/
theorem resolver_variants_agree (bs : List BudgetRow) (M : String) (cats : List String)
    (hinv : budgetInvariant bs) :
    getMonthlyBudgetsWithFallback bs M cats =
      (getMonthlyBudgetsWithFallbackStatus bs M cats).map (fun p => (p.1, p.2.amount)) := by
  rw [getMonthlyBudgetsWithFallback, getMonthlyBudgetsWithFallbackStatus, List.map_map]
  apply List.map_congr_left
  intro c hc
  simp only [Function.comp]
  congr 1
  cases hE : findExact bs c M with
  | none =>
    rw [resolveBudgetStatus, hE]
    cases hF : findFallback bs c M <;> rfl
  | some e =>
    obtain ⟨hemem, hec, hem⟩ := findExact_some hE
    have hle : textLe e.month M := by
      rw [hem]
      exact textLe_refl M
    obtain ⟨r, hr⟩ := findFallback_isSome hemem hec hle
    obtain ⟨hrmem, hrc, hrm, hrmax⟩ := findFallback_some hr
    have hrM : textLe M r.month := by
      have h2 := hrmax e hemem hec hle
      rwa [hem] at h2
    have hmonth : r.month = e.month := (textLe_antisymm hrm hrM).trans hem.symm
    have : r = e := budgetInvariant_unique hinv hrmem hemem hmonth (hrc.trans hec.symm)
    rw [resolveBudgetStatus_exact hE, hr, this]

/-- C7: validation errors are rejected before any storage call — when the
parsed amount is non-finite or not greater than 0, the category is not in
the allow-list, or the date is invalid, both write paths (`handleSubmit`
and `handleEditSave`) report a descriptive error and leave the stored
transaction set unchanged. -/
theorem validation_rejected_before_storage
    (parsedAmount : Option ℚ) (category : String) (dateValid dbReady : Bool)
    (label date : String) (nextId : Nat) (ts : List TransactionRow) (selectedIds : List Nat)
    (h : parsedAmount = none ∨ (∃ a, parsedAmount = some a ∧ a ≤ 0) ∨
      category ∉ categories ∨ dateValid = false) :
    ((handleSubmit parsedAmount category dateValid dbReady label date nextId ts).2 = ts ∧
      ∃ msg, (handleSubmit parsedAmount category dateValid dbReady label date nextId ts).1 =
        .error msg) ∧
    ((handleEditSave selectedIds parsedAmount category dateValid label date ts).2 = ts ∧
      ∃ msg, (handleEditSave selectedIds parsedAmount category dateValid label date ts).1 =
        .error msg) := by
  refine ⟨?_, ?_⟩
  · cases parsedAmount with
    | none => simp [handleSubmit]
    | some a =>
      by_cases ha : a ≤ 0
      · simp [handleSubmit, ha]
      · by_cases hcat : category ∈ categories
        · have hd : dateValid = false := by
            rcases h with h | ⟨a', ha', hle⟩ | h | h
            · cases h
            · cases ha'
              exact absurd hle ha
            · exact absurd hcat h
            · exact h
          subst hd
          simp [handleSubmit, ha, hcat]
        · simp [handleSubmit, ha, hcat]
  · by_cases hsel : selectedIds.length = 1
    · cases parsedAmount with
      | none => simp [handleEditSave, hsel]
      | some a =>
        by_cases ha : a ≤ 0
        · simp [handleEditSave, hsel, ha]
        · by_cases hcat : category ∈ categories
          · have hd : dateValid = false := by
              rcases h with h | ⟨a', ha', hle⟩ | h | h
              · cases h
              · cases ha'
                exact absurd hle ha
              · exact absurd hcat h
              · exact h
            subst hd
            simp [handleEditSave, hsel, ha, hcat]
          · simp [handleEditSave, hsel, ha, hcat]
    · simp [handleEditSave, hsel]

/-- Witness for C7: a submission with a negative parsed amount is
rejected by both paths and leaves the empty store empty. -/
theorem validation_rejected_before_storage_witness :
    (handleSubmit (some (-1)) "fun" true true "" "2024-06-01" 1 []).2 = [] ∧
    ∃ msg, (handleSubmit (some (-1)) "fun" true true "" "2024-06-01" 1 []).1 = .error msg :=
  (validation_rejected_before_storage (some (-1)) "fun" true true "" "2024-06-01" 1 [] [5]
    (Or.inr (Or.inl ⟨-1, rfl, by norm_num⟩))).1

/-- C8: budget resolution is all-or-nothing across categories — when
either storage lookup of any requested category rejects (the exact-month
query, or the `month <= ?` fallback query, which runs when the exact
query finds no row), the whole `resolveBudgetsStatusE` call rejects (no
partial maps); when every lookup succeeds, the returned `amounts` and
`exact` maps carry exactly the requested categories as keys, in order. -/
theorem resolution_all_or_nothing (exactQ fallbackQ : String → Except String (Option ℚ))
    (cats : List String) :
    ((∃ c ∈ cats, (∃ msg, exactQ c = .error msg) ∨
        (exactQ c = .ok none ∧ ∃ msg, fallbackQ c = .error msg)) →
      ∃ msg, resolveBudgetsStatusE exactQ fallbackQ cats = .error msg) ∧
    ((∀ c ∈ cats, (∃ v, exactQ c = .ok v) ∧ ∃ v, fallbackQ c = .ok v) →
      ∃ amounts exacts,
        resolveBudgetsStatusE exactQ fallbackQ cats = .ok (amounts, exacts) ∧
        amounts.map Prod.fst = cats ∧ exacts.map Prod.fst = cats) := by
  induction cats with
  | nil =>
    constructor
    · intro ⟨c, hc, _⟩
      cases hc
    · intro _
      exact ⟨[], [], rfl, rfl, rfl⟩
  | cons c rest ih =>
    constructor
    · intro ⟨c', hc', hfail⟩
      rcases List.mem_cons.mp hc' with rfl | hc'
      · rcases hfail with ⟨msg, hmsg⟩ | ⟨hnone, msg, hmsg⟩
        · exact ⟨msg, by simp [resolveBudgetsStatusE, hmsg, Bind.bind, Except.bind]⟩
        · exact ⟨msg, by simp [resolveBudgetsStatusE, hnone, hmsg, Bind.bind, Except.bind]⟩
      · cases hC : exactQ c with
        | error m => exact ⟨m, by simp [resolveBudgetsStatusE, hC, Bind.bind, Except.bind]⟩
        | ok v =>
          obtain ⟨m, hm⟩ := ih.1 ⟨c', hc', hfail⟩
          cases v with
          | some a =>
            exact ⟨m, by simp [resolveBudgetsStatusE, hC, hm, Bind.bind, Except.bind]⟩
          | none =>
            cases hF : fallbackQ c with
            | error m2 =>
              exact ⟨m2, by simp [resolveBudgetsStatusE, hC, hF, Bind.bind, Except.bind]⟩
            | ok fb =>
              exact ⟨m, by simp [resolveBudgetsStatusE, hC, hF, hm, Bind.bind, Except.bind]⟩
    · intro hok
      obtain ⟨vE, hvE⟩ := (hok c (List.mem_cons_self c rest)).1
      obtain ⟨vF, hvF⟩ := (hok c (List.mem_cons_self c rest)).2
      obtain ⟨amounts, exacts, hrec, hka, hke⟩ :=
        ih.2 (fun c' hc' => hok c' (List.mem_cons_of_mem c hc'))
      cases vE with
      | some a =>
        refine ⟨(c, a) :: amounts, (c, true) :: exacts, ?_, ?_, ?_⟩
        · simp [resolveBudgetsStatusE, hvE, hrec, Bind.bind, Except.bind]
        · simp [hka]
        · simp [hke]
      | none =>
        refine ⟨(c, vF.getD 0) :: amounts, (c, false) :: exacts, ?_, ?_, ?_⟩
        · simp [resolveBudgetsStatusE, hvE, hvF, hrec, Bind.bind, Except.bind]
        · simp [hka]
        · simp [hke]

/-- Witness for C8: a failing `groceries` exact-month lookup aborts the
whole call; so does a failing `groceries` fallback lookup reached after an
empty exact-month result; with all lookups succeeding, both maps list
every requested category. -/
theorem resolution_all_or_nothing_witness :
    (∃ msg, resolveBudgetsStatusE
      (fun c => if c = "groceries" then .error "storage failure" else .ok (some 5))
      (fun _ => .ok none) ["fun", "groceries"] = .error msg) ∧
    (∃ msg, resolveBudgetsStatusE (fun _ => .ok none)
      (fun c => if c = "groceries" then .error "storage failure" else .ok (some 5))
      ["fun", "groceries"] = .error msg) ∧
    ∃ amounts exacts,
      resolveBudgetsStatusE (fun _ => .ok (some 5)) (fun _ => .ok none)
        ["fun", "groceries"] = .ok (amounts, exacts) ∧
      amounts.map Prod.fst = ["fun", "groceries"] ∧
      exacts.map Prod.fst = ["fun", "groceries"] :=
  ⟨(resolution_all_or_nothing
      (fun c => if c = "groceries" then .error "storage failure" else .ok (some 5))
      (fun _ => .ok none) ["fun", "groceries"]).1
      ⟨"groceries", by decide, Or.inl ⟨"storage failure", rfl⟩⟩,
   (resolution_all_or_nothing (fun _ => .ok none)
      (fun c => if c = "groceries" then .error "storage failure" else .ok (some 5))
      ["fun", "groceries"]).1
      ⟨"groceries", by decide, Or.inr ⟨rfl, "storage failure", rfl⟩⟩,
   (resolution_all_or_nothing (fun _ => .ok (some 5)) (fun _ => .ok none)
      ["fun", "groceries"]).2
      (fun c _ => ⟨⟨some 5, rfl⟩, ⟨none, rfl⟩⟩)⟩

/-- C10: DonutChart clamps its progress input — the drawn arc length
equals `circumference * max(0, min(1, progress))`, so the rendered arc is
never negative and never exceeds a full circle. -/
theorem donut_progress_clamped (pi size strokeWidth progress : ℚ)
    (hpi : 0 ≤ pi) (hsz : strokeWidth ≤ size) :
    donutDash pi size strokeWidth progress =
      donutCircumference pi size strokeWidth * max 0 (min 1 progress) ∧
    0 ≤ donutDash pi size strokeWidth progress ∧
    donutDash pi size strokeWidth progress ≤ donutCircumference pi size strokeWidth := by
  have hcirc : 0 ≤ donutCircumference pi size strokeWidth := by
    rw [donutCircumference, donutRadius]
    have h1 : (0:ℚ) ≤ size - strokeWidth := by linarith
    have h2 : (0:ℚ) ≤ (size - strokeWidth) / 2 := by positivity
    positivity
  have hcl0 : 0 ≤ clampedProgress progress := le_max_left 0 _
  have hcl1 : clampedProgress progress ≤ 1 := by
    rw [clampedProgress]
    apply max_le
    · norm_num
    · exact min_le_left 1 progress
  refine ⟨rfl, ?_, ?_⟩
  · rw [donutDash]
    exact mul_nonneg hcirc hcl0
  · rw [donutDash]
    exact mul_le_of_le_one_right hcirc hcl1

/-! ## Helper lemmas: the notification bus -/

theorem mem_idsOf {s : Listeners} {n : Nat} : n ∈ idsOf s ↔ some n ∈ s := by
  simp [idsOf, List.mem_filterMap]

theorem idsOf_append (s t : Listeners) : idsOf (s ++ t) = idsOf s ++ idsOf t := by
  simp [idsOf, List.filterMap_append]

theorem applyOp_add_spec (s : Listeners) (n : Nat) :
    ∃ u, applyOp s (BusOp.add n) = s ++ u ∧ u.length ≤ 1 ∧
      (∀ e ∈ u, ∃ m, e = some m) ∧
      ((idsOf s).Nodup → (idsOf (s ++ u)).Nodup) := by
  rw [applyOp, subscribeTransactionsChanged]
  by_cases h : some n ∈ s
  · refine ⟨[], by simp [h], by simp, by simp, ?_⟩
    intro hnd
    simpa using hnd
  · refine ⟨[some n], by simp [h], by simp, by simp, ?_⟩
    intro hnd
    rw [idsOf_append]
    have : idsOf [some n] = [n] := rfl
    rw [this]
    rw [List.nodup_append]
    refine ⟨hnd, List.nodup_singleton n, ?_⟩
    intro a ha hb
    have : a = n := by simpa using hb
    subst this
    exact h (mem_idsOf.mp ha)

theorem addsOf_cons_add (n : Nat) (ops : List BusOp) :
    addsOf (BusOp.add n :: ops) = addsOf ops + 1 := by
  simp [addsOf, List.filter]

theorem applyOps_adds_spec (ops : List BusOp) (hops : ∀ o ∈ ops, isAdd o = true) :
    ∀ s : Listeners, ∃ u, applyOps s ops = s ++ u ∧ u.length ≤ addsOf ops ∧
      (∀ e ∈ u, ∃ m, e = some m) ∧
      ((idsOf s).Nodup → (idsOf (s ++ u)).Nodup) := by
  induction ops with
  | nil =>
    intro s
    exact ⟨[], by simp [applyOps], by simp [addsOf], by simp, fun h => by simpa⟩
  | cons o ops ih =>
    intro s
    have hn : ∃ n, o = BusOp.add n := by
      have := hops o (List.mem_cons_self o ops)
      cases o with
      | add n => exact ⟨n, rfl⟩
      | remove n => simp [isAdd] at this
    obtain ⟨n, rfl⟩ := hn
    obtain ⟨u1, hu1, hl1, hs1, hn1⟩ := applyOp_add_spec s n
    have hstep : applyOps s (BusOp.add n :: ops) = applyOps (s ++ u1) ops := by
      rw [applyOps, List.foldl_cons, hu1]
      rfl
    obtain ⟨u2, hu2, hl2, hs2, hn2⟩ :=
      ih (fun o ho => hops o (List.mem_cons_of_mem _ ho)) (s ++ u1)
    refine ⟨u1 ++ u2, ?_, ?_, ?_, ?_⟩
    · rw [hstep, hu2, List.append_assoc]
    · rw [List.length_append, addsOf_cons_add]
      omega
    · intro e he
      rcases List.mem_append.mp he with he | he
      · exact hs1 e he
      · exact hs2 e he
    · intro hnd
      rw [← List.append_assoc]
      exact hn2 (hn1 hnd)

theorem remAdds_cons (p : Nat × List BusOp) (eff : ListenerEffects) (P : List Nat) :
    remAdds (p :: eff) P =
      (if p.1 ∈ P then 0 else addsOf p.2) + remAdds eff P := by
  by_cases h : p.1 ∈ P <;> simp [remAdds, h]

theorem remAdds_mono (eff : ListenerEffects) {P Q : List Nat}
    (h : ∀ a ∈ P, a ∈ Q) : remAdds eff Q ≤ remAdds eff P := by
  induction eff with
  | nil => simp [remAdds]
  | cons p eff ih =>
    rw [remAdds_cons, remAdds_cons]
    have hcase : (if p.1 ∈ Q then 0 else addsOf p.2) ≤ (if p.1 ∈ P then 0 else addsOf p.2) := by
      by_cases hp : p.1 ∈ P
      · simp [hp, h p.1 hp]
      · by_cases hq : p.1 ∈ Q <;> simp [hp, hq]
    omega

theorem effectOf_cons (p : Nat × List BusOp) (eff : ListenerEffects) (l : Nat) :
    effectOf (p :: eff) l = if p.1 = l then p.2 else effectOf eff l := by
  by_cases h : p.1 = l
  · have hf : List.find? (fun q : Nat × List BusOp => q.1 == l) (p :: eff) = some p :=
      List.find?_cons_of_pos _ (by simp [h])
    rw [effectOf, hf, if_pos h]
  · have hf : List.find? (fun q : Nat × List BusOp => q.1 == l) (p :: eff) =
        List.find? (fun q : Nat × List BusOp => q.1 == l) eff :=
      List.find?_cons_of_neg _ (by simp [h])
    rw [effectOf, hf, if_neg h, effectOf]

theorem remAdds_visit (eff : ListenerEffects) (P : List Nat) (l : Nat) (hl : l ∉ P) :
    remAdds eff (P ++ [l]) + addsOf (effectOf eff l) ≤ remAdds eff P := by
  induction eff with
  | nil => simp [remAdds, effectOf, addsOf]
  | cons p eff ih =>
    rw [remAdds_cons, remAdds_cons, effectOf_cons]
    by_cases hpl : p.1 = l
    · subst hpl
      have h1 : p.1 ∈ P ++ [p.1] := by simp
      have h2 : p.1 ∉ P := hl
      rw [if_pos h1, if_neg h2, if_pos rfl]
      have := remAdds_mono eff (P := P) (Q := P ++ [p.1]) (fun a ha => by simp [ha])
      omega
    · have hmem : p.1 ∈ P ++ [l] ↔ p.1 ∈ P := by simp [hpl]
      rw [if_neg hpl]
      by_cases hp : p.1 ∈ P
      · rw [if_pos (hmem.mpr hp), if_pos hp]
        omega
      · rw [if_neg (fun hx => hp (hmem.mp hx)), if_neg hp]
        omega

theorem remAdds_nil_visited (eff : ListenerEffects) : remAdds eff [] = totalAdds eff := by
  simp [remAdds, totalAdds]

theorem take_succ_of_lt {α : Type} :
    ∀ (l : List α) (i : Nat) (h : i < l.length),
      l.take (i + 1) = l.take i ++ [l.get ⟨i, h⟩] := by
  intro l
  induction l with
  | nil =>
    intro i h
    simp at h
  | cons a l ih =>
    intro i h
    cases i with
    | zero => simp
    | succ i =>
      have hi : i < l.length := by simpa using h
      simp only [List.take_succ_cons, List.get_cons_succ]
      rw [ih i hi]
      simp

theorem take_append_of_le {α : Type} :
    ∀ (l₁ l₂ : List α) (n : Nat), n ≤ l₁.length → (l₁ ++ l₂).take n = l₁.take n := by
  intro l₁
  induction l₁ with
  | nil =>
    intro l₂ n hn
    have hz : n = 0 := by simpa using hn
    subst hz
    simp
  | cons a l ih =>
    intro l₂ n hn
    cases n with
    | zero => simp
    | succ n =>
      simp only [List.cons_append, List.take_succ_cons]
      rw [ih l₂ n (by simpa using hn)]

theorem emitLoop_stop {eff : ListenerEffects} {fuel i : Nat} {s : Listeners}
    {log : List Nat} (h : ¬ i < s.length) : emitLoop eff fuel i s log = (s, log) := by
  cases fuel with
  | zero => rfl
  | succ fuel =>
    rw [emitLoop, dif_neg h]

theorem emitLoop_succ_some {eff : ListenerEffects} {fuel i : Nat} {s : Listeners}
    {log : List Nat} {l : Nat} (h : i < s.length) (hl : s.get ⟨i, h⟩ = some l) :
    emitLoop eff (fuel + 1) i s log =
      emitLoop eff fuel (i + 1) (applyOps s (effectOf eff l)) (log ++ [l]) := by
  rw [emitLoop, dif_pos h, hl]

/-- Running the `forEach` walk from index `i`: with add-only callbacks,
live distinct entries, and enough fuel, the walk only appends entries and
logs exactly the ids from position `i` on, in order. -/
theorem emitLoop_run (eff : ListenerEffects) (heff : addsOnly eff) :
    ∀ (fuel i : Nat) (s : Listeners) (log : List Nat),
      (∀ e ∈ s, ∃ n, e = some n) → (idsOf s).Nodup → i ≤ s.length →
      (s.length - i) + remAdds eff (idsOf (s.take i)) ≤ fuel →
      ∃ t, emitLoop eff fuel i s log = (s ++ t, log ++ idsOf ((s ++ t).drop i)) ∧
        (∀ e ∈ s ++ t, ∃ n, e = some n) ∧ (idsOf (s ++ t)).Nodup := by
  intro fuel
  induction fuel with
  | zero =>
    intro i s log hsome hnd hi hfuel
    have hieq : i = s.length := by omega
    refine ⟨[], ?_, by simpa using hsome, by simpa using hnd⟩
    rw [emitLoop_stop (by omega), List.append_nil, hieq, List.drop_length]
    simp [idsOf]
  | succ fuel ih =>
    intro i s log hsome hnd hi hfuel
    by_cases hlt : i < s.length
    · obtain ⟨l, hl⟩ := hsome (s.get ⟨i, hlt⟩) (s.get_mem i hlt)
      have hopsAO : ∀ o ∈ effectOf eff l, isAdd o = true := by
        rw [effectOf]
        cases hf : eff.find? (fun p => p.1 == l) with
        | none => simp
        | some p => exact heff p (List.mem_of_find?_eq_some hf)
      obtain ⟨u, hu, hul, hus, hund⟩ := applyOps_adds_spec _ hopsAO s
      have hsome2 : ∀ e ∈ s ++ u, ∃ n, e = some n := by
        intro e he
        rcases List.mem_append.mp he with he | he
        · exact hsome e he
        · exact hus e he
      have hnd2 : (idsOf (s ++ u)).Nodup := hund hnd
      have hlen2 : (s ++ u).length = s.length + u.length := List.length_append s u
      have hi2 : i + 1 ≤ (s ++ u).length := by omega
      have htake : idsOf ((s ++ u).take (i + 1)) = idsOf (s.take i) ++ [l] := by
        rw [take_append_of_le s u (i + 1) hlt, take_succ_of_lt s i hlt, hl,
          idsOf_append]
        rfl
      have hdropS : s.drop i = some l :: s.drop (i + 1) := by
        rw [List.drop_eq_get_cons hlt, hl]
      have hidsplit : idsOf s = idsOf (s.take i) ++ (l :: idsOf (s.drop (i + 1))) := by
        conv =>
          left
          rw [← List.take_append_drop i s]
        rw [idsOf_append, hdropS]
        rfl
      have hlnotin : l ∉ idsOf (s.take i) := by
        intro hmem
        rw [hidsplit, List.nodup_append] at hnd
        exact hnd.2.2 hmem (List.mem_cons_self l _)
      have hvisit := remAdds_visit eff (idsOf (s.take i)) l hlnotin
      have hfuel2 : ((s ++ u).length - (i + 1)) +
          remAdds eff (idsOf ((s ++ u).take (i + 1))) ≤ fuel := by
        rw [htake]
        omega
      obtain ⟨t2, ht2, hsome3, hnd3⟩ := ih (i + 1) (s ++ u) (log ++ [l]) hsome2 hnd2 hi2 hfuel2
      have hassoc : s ++ (u ++ t2) = (s ++ u) ++ t2 := (List.append_assoc s u t2).symm
      refine ⟨u ++ t2, ?_, ?_, ?_⟩
      · rw [emitLoop_succ_some hlt hl, hu, ht2, hassoc]
        have hidrop : ((s ++ u) ++ t2).drop i = some l :: ((s ++ u) ++ t2).drop (i + 1) := by
          have hlt2 : i < ((s ++ u) ++ t2).length := by
            rw [List.length_append, hlen2]
            omega
          rw [List.drop_eq_get_cons hlt2]
          congr 1
          have h1 : ((s ++ u) ++ t2).get ⟨i, hlt2⟩ = (s ++ u).get ⟨i, by omega⟩ :=
            List.get_append i (by omega)
          have h2 : (s ++ u).get ⟨i, by omega⟩ = s.get ⟨i, hlt⟩ := List.get_append i hlt
          rw [h1, h2, hl]
        rw [hidrop]
        have : idsOf (some l :: ((s ++ u) ++ t2).drop (i + 1)) =
            l :: idsOf (((s ++ u) ++ t2).drop (i + 1)) := rfl
        rw [this, List.append_assoc]
        simp
      · rw [hassoc]
        exact hsome3
      · rw [hassoc]
        exact hnd3
    · have hieq : i = s.length := by omega
      refine ⟨[], ?_, by simpa using hsome, by simpa using hnd⟩
      rw [emitLoop_stop hlt, List.append_nil, hieq, List.drop_length]
      simp [idsOf]

/-- C3 (amended): a single `emitTransactionsChanged` call, with callbacks
that only subscribe (never unsubscribe), invokes each listener subscribed
at the start of the call exactly once — and a listener that subscribes
during the publish (from inside another listener's callback) is ALSO
invoked exactly once in that same pass, since `Set.prototype.forEach`
visits entries appended during the walk. -/
theorem emit_invokes_listeners_once (eff : ListenerEffects) (s : Listeners)
    (heff : addsOnly eff) (hsome : ∀ e ∈ s, ∃ n, e = some n)
    (hnd : (idsOf s).Nodup) :
    (∀ n, some n ∈ s → (emitTransactionsChanged eff s).2.count n = 1) ∧
    (∀ n, some n ∈ (emitTransactionsChanged eff s).1 →
      (emitTransactionsChanged eff s).2.count n = 1) := by
  have hfuel : (s.length - 0) + remAdds eff (idsOf (s.take 0)) ≤ s.length + totalAdds eff := by
    rw [List.take_zero]
    have : idsOf ([] : Listeners) = [] := rfl
    rw [this, remAdds_nil_visited]
    omega
  obtain ⟨t, ht, hsome', hnd'⟩ :=
    emitLoop_run eff heff (s.length + totalAdds eff) 0 s [] hsome hnd (Nat.zero_le _) hfuel
  have hres : emitTransactionsChanged eff s = (s ++ t, idsOf (s ++ t)) := by
    rw [emitTransactionsChanged, ht, List.drop_zero, List.nil_append]
  constructor
  · intro n hn
    rw [hres]
    exact List.count_eq_one_of_mem hnd' (mem_idsOf.mpr (List.mem_append_left t hn))
  · intro n hn
    rw [hres] at hn ⊢
    exact List.count_eq_one_of_mem hnd' (mem_idsOf.mpr hn)

/-- Witness for C3: listener 0's callback subscribes listener 1; both are
invoked exactly once in the pass. -/
theorem emit_invokes_listeners_once_witness :
    (emitTransactionsChanged [(0, [BusOp.add 1])] [some 0]).2.count 0 = 1 ∧
    (emitTransactionsChanged [(0, [BusOp.add 1])] [some 0]).2.count 1 = 1 :=
  ⟨(emit_invokes_listeners_once [(0, [BusOp.add 1])] [some 0] (by decide)
      (by intro e he; simp at he; exact ⟨0, he⟩) (by decide)).1 0 (by decide),
   (emit_invokes_listeners_once [(0, [BusOp.add 1])] [some 0] (by decide)
      (by intro e he; simp at he; exact ⟨0, he⟩) (by decide)).2 1 (by decide)⟩

/-- Counterexample to C3 as stated: listener 1 is not subscribed at the
start of the publish, subscribes during listener 0's callback, and IS
invoked in that same publish pass (`forEach` visits appended entries), so
"a listener that subscribes during that publish call is not invoked in
that same publish pass" fails on the code. -/
theorem emit_excludes_added_listener_counterexample :
    some 1 ∉ ([some 0] : Listeners) ∧
    (emitTransactionsChanged [(0, [BusOp.add 1])] [some 0]).2 = [0, 1] := by decide

/-- Witness for C10: an out-of-range progress of 3/2 at the default
geometry stays within a full circle. -/
theorem donut_progress_clamped_witness :
    donutDash (314159/100000) 96 10 (3/2) =
      donutCircumference (314159/100000) 96 10 * max 0 (min 1 (3/2)) ∧
    0 ≤ donutDash (314159/100000) 96 10 (3/2) ∧
    donutDash (314159/100000) 96 10 (3/2) ≤ donutCircumference (314159/100000) 96 10 :=
  donut_progress_clamped (314159/100000) 96 10 (3/2) (by norm_num) (by norm_num)

/-- Witness for C9: a state with an exact June row and a carried-forward
January row. -/
theorem resolver_variants_agree_witness :
    getMonthlyBudgetsWithFallback
        [⟨"2024-01", "fun", 50⟩, ⟨"2024-06", "fun", 80⟩] "2024-06" ["fun", "groceries"] =
      (getMonthlyBudgetsWithFallbackStatus
        [⟨"2024-01", "fun", 50⟩, ⟨"2024-06", "fun", 80⟩] "2024-06" ["fun", "groceries"]).map
        (fun p => (p.1, p.2.amount)) :=
  resolver_variants_agree [⟨"2024-01", "fun", 50⟩, ⟨"2024-06", "fun", 80⟩] "2024-06"
    ["fun", "groceries"] (by decide)

end SpendingTracker
